import Mathlib

/-!
Shallow embedding of the analytics/stats engine of `src/server.js` (Placeport).

The embedded fragment is the `StateManagement` class (lines 290-449), the stats
route handlers built on it (`saveAllImageStats`, `sendRecentTexts`,
`sendRecentPaths`, `sendRecentSizes`, `sendTopSizes`, `sendTopReferences`,
`sendSecondHits`, `clearAllStats`, lines 700-823) and the small utilities they
use (`isNil`, line 60).

Modelling conventions:
* JS timestamps (`Date.now()`, ms since epoch) are `Int`; each call that reads
  the clock takes the clock value as an explicit argument.
* The file system is a map from collection name to an optional stored list
  (`fs.existsSync` = `Option.isSome`); `JSON.parse ∘ JSON.stringify` is the
  identity on the record lists the store writes.
* A thrown JS exception is `Except.error`; code that cannot throw is pure.
-/

/-- JS values that can reach the state manager as an `entry`: the server stores
strings (paths, texts, referrer headers) and the `{ w, h }` size objects built
in `saveAllImageStats` (line 713); `null`, `undefined` and arrays matter only
to the `_canAdd` guard.  An array is represented by its length alone: the
embedded code never reads anything else of an array — `_canAdd` throws on its
`a.length` guard before any array can be stored or compared.  `JSON.stringify`
is injective on the non-nil values of this domain (fixed key order `w`,`h` for
size objects), so the source's stringify-comparison in `_incrementIfExists`
(line 420) is structural equality, which `DecidableEq` provides. -/
inductive JsValue where
  | vNull : JsValue
  | vUndefined : JsValue
  | vStr : String → JsValue
  | vSize : String → String → JsValue
  | vArr : Nat → JsValue
deriving DecidableEq

/-- One stored record, as pushed by `addArrayEntry` line 328:
`{ entry, time: Date.now(), count: 1 }`. -/
structure EntryRecord where
  entry : JsValue
  time : Int
  count : Nat
deriving DecidableEq

/-- `isNil` (line 60): `value == null`, true exactly for `null` and
`undefined`. -/
def isNil : JsValue → Bool
  | .vNull => true
  | .vUndefined => true
  | _ => false

/-- The one JS exception the embedded fragment can raise. -/
inductive JsError where
  | referenceError : JsError
deriving DecidableEq

/-- `_canAdd` (lines 443-448).  The third guard reads
`if (Array.isArray(entry) && a.length === 0) return false;` — the identifier
`a` is not in scope anywhere in `server.js`, so as soon as `Array.isArray(entry)`
is true the conjunction evaluates `a.length` and throws
`ReferenceError: a is not defined`.  Strings and nil values never reach that
branch. -/
def canAdd (entry : JsValue) : Except JsError Bool :=
  if isNil entry then .ok false
  else
    match entry with
    | .vStr s => if s = "" then .ok false else .ok true
    | .vArr _ => .error .referenceError
    | _ => .ok true

/-- The state of a `StateManagement` instance (lines 296-313): the constructor
arguments plus the two stores.  `localPersistance` models the in-memory JS
object (line 307, absent key = `none`); `disk` models the
`<location>/<name>.json` files (absent file = `none`).  The constructor's
`mkdirSync` touches no collection file, so it does not appear in the state. -/
structure StateManagement where
  location : String
  filePersistance : Bool
  localPersistance : String → Option (List EntryRecord)
  disk : String → Option (List EntryRecord)

/-- A freshly constructed `StateManagement` over an empty durable location:
`localPersistance = {}`, no collection files on disk. -/
def emptyState (persist : Bool) : StateManagement :=
  ⟨"persistance", persist, fun _ => none, fun _ => none⟩

/-- Point update of a name-indexed slot map. -/
def updateSlot (f : String → Option (List EntryRecord)) (name : String)
    (v : List EntryRecord) : String → Option (List EntryRecord) :=
  fun n => if n = name then some v else f n

/-- `writeArrayEntries` (lines 403-411): when persisting, write the serialized
entries to `<location>/<name>.json`; always update the in-memory store. -/
def writeArrayEntries (s : StateManagement) (name : String)
    (entries : List EntryRecord) : StateManagement :=
  { s with
    disk := if s.filePersistance then updateSlot s.disk name entries else s.disk
    localPersistance := updateSlot s.localPersistance name entries }

/-- `removeArrayEntries` (lines 394-396): write an empty list. -/
def removeArrayEntries (s : StateManagement) (name : String) : StateManagement :=
  writeArrayEntries s name []

/-- The content `getArrayEntries` (lines 376-382) starts from: the in-memory
array (`|| []` for an absent key), replaced by the parsed file when
`filePersistance` is set and the file exists. -/
def getContent (s : StateManagement) (name : String) : List EntryRecord :=
  if s.filePersistance && (s.disk name).isSome then (s.disk name).getD []
  else (s.localPersistance name).getD []

/-- Model of `content.sort((a, b) => a.time < b.time)` (line 386) and
`.sort((a, b) => a.count < b.count)` (lines 762, 773).  These comparators
return a boolean, which `Array.prototype.sort` coerces to `1` or `0` — never a
negative number.  ES2023 requires a stable sort, and an element is placed
before another only on a negative comparator result, so no element ever moves:
V8's TimSort scans one all-"ascending" run (run extension needs only
`compare ≥ 0`) and performs neither insertion nor merge steps.  The sort is
therefore the identity on the array. -/
def jsSortNonNeg (l : List EntryRecord) : List EntryRecord := l

/-- `getArrayEntries` (lines 376-388) before the `map` projection: pick the
content, sort it in place when `order` is set, and return it.  In memory mode
(and in persisting mode when the file is absent) `content` aliases the stored
array when the key is present, so the in-place sort writes the (identical)
sorted array back to the store. -/
def getArrayRecords (s : StateManagement) (name : String) (order : Bool) :
    List EntryRecord × StateManagement :=
  let fromDisk := s.filePersistance && (s.disk name).isSome
  let content := getContent s name
  let sorted := if order then jsSortNonNeg content else content
  let s1 :=
    if order && !fromDisk && (s.localPersistance name).isSome then
      { s with localPersistance := updateSlot s.localPersistance name sorted }
    else s
  (sorted, s1)

/-- `getArrayEntries` with `map = true`: project each record to its bare
entry (line 387). -/
def getArrayEntriesMapped (s : StateManagement) (name : String) (order : Bool) :
    List JsValue × StateManagement :=
  let res := getArrayRecords s name order
  (res.1.map (·.entry), res.2)

/-- `_incrementIfExists` / `_incrementEntry` (lines 419-437): find the first
record whose serialized entry equals the new value; if present, set its time
to now and bump its count, returning the updated list; otherwise `none`. -/
def incrementFirst (t : Int) (v : JsValue) :
    List EntryRecord → Option (List EntryRecord)
  | [] => none
  | r :: rs =>
      if r.entry = v then some ({ entry := r.entry, time := t, count := r.count + 1 } :: rs)
      else Option.map (fun l => r :: l) (incrementFirst t v rs)

/-- Lines 327-329 of `addArrayEntry` (same in `addArrayCountEntry`): increment
the existing record when `increment` is set and one exists, otherwise push
`{ entry, time: Date.now(), count: 1 }`. -/
def mergedContent (content : List EntryRecord) (v : JsValue) (t : Int)
    (increment : Bool) : List EntryRecord :=
  match (if increment then incrementFirst t v content else none) with
  | some c => c
  | none => content ++ [⟨v, t, 1⟩]

/-- The recency comparator of line 334, `(a, b) => b.time - a.time`, read as
"a may precede b": `b.time - a.time ≤ 0`. -/
def recencyLe (a b : EntryRecord) : Prop := b.time ≤ a.time

instance : DecidableRel recencyLe :=
  fun a b => inferInstanceAs (Decidable (b.time ≤ a.time))

instance : IsTotal EntryRecord recencyLe :=
  ⟨fun a b => le_total b.time a.time⟩

instance : IsTrans EntryRecord recencyLe :=
  ⟨fun _ _ _ h1 h2 => le_trans h2 h1⟩

/-- The frequency comparator of line 362,
`(a, b) => (a.count === b.count ? b.time - a.time : b.count - a.count)`, read
as "a may precede b" (comparator value ≤ 0). -/
def freqLe (a b : EntryRecord) : Prop :=
  b.count < a.count ∨ (a.count = b.count ∧ b.time ≤ a.time)

instance : DecidableRel freqLe :=
  fun a b => inferInstanceAs (Decidable (b.count < a.count ∨ (a.count = b.count ∧ b.time ≤ a.time)))

instance : IsTotal EntryRecord freqLe := by
  constructor
  intro a b
  rcases lt_trichotomy a.count b.count with h | h | h
  · exact Or.inr (Or.inl h)
  · rcases le_total b.time a.time with ht | ht
    · exact Or.inl (Or.inr ⟨h, ht⟩)
    · exact Or.inr (Or.inr ⟨h.symm, ht⟩)
  · exact Or.inl (Or.inl h)

instance : IsTrans EntryRecord freqLe := by
  constructor
  intro a b c hab hbc
  rcases hab with h1 | ⟨e1, t1⟩
  · rcases hbc with h2 | ⟨e2, t2⟩
    · exact Or.inl (h2.trans h1)
    · exact Or.inl (e2 ▸ h1)
  · rcases hbc with h2 | ⟨e2, t2⟩
    · exact Or.inl (e1 ▸ h2)
    · exact Or.inr ⟨e1.trans e2, t2.trans t1⟩

/-- `content.sort((a, b) => b.time - a.time)` (line 334): a consistent numeric
comparator, so ES2023 prescribes the unique stable order — time descending,
ties kept in original order — which Mathlib's stable `insertionSort` by
`recencyLe` produces. -/
def sortTimeDesc (l : List EntryRecord) : List EntryRecord :=
  List.insertionSort recencyLe l

/-- `content.sort((a, b) => (a.count === b.count ? b.time - a.time : b.count - a.count))`
(line 362): count descending, ties time descending, stable. -/
def sortCountDesc (l : List EntryRecord) : List EntryRecord :=
  List.insertionSort freqLe l

/-- Lines 333-336: when a capacity is set and exceeded, sort time-descending
and `pop()` the last (oldest) element. -/
def capByTime (cap : Option Nat) (l : List EntryRecord) : List EntryRecord :=
  match cap with
  | none => l
  | some k => if k < l.length then (sortTimeDesc l).dropLast else l

/-- Lines 361-364: when a capacity is set and exceeded, sort by the frequency
comparator and `pop()` the last (lowest count, oldest among ties) element. -/
def capByCount (cap : Option Nat) (l : List EntryRecord) : List EntryRecord :=
  match cap with
  | none => l
  | some k => if k < l.length then (sortCountDesc l).dropLast else l

/-- `addArrayEntry` (lines 322-340).  `t` is the `Date.now()` value of this
call (merge refresh and push happen in the same tick in the source; both use
the call's clock reading). -/
def addArrayEntry (s : StateManagement) (name : String) (entry : JsValue)
    (cap : Option Nat) (t : Int) (increment : Bool) :
    Except JsError StateManagement :=
  match canAdd entry with
  | .error e => .error e
  | .ok false => .ok s
  | .ok true =>
      let content := (getArrayRecords s name false).1
      .ok (writeArrayEntries s name (capByTime cap (mergedContent content entry t increment)))

/-- `addArrayCountEntry` (lines 350-368): identical to `addArrayEntry` except
for the eviction comparator. -/
def addArrayCountEntry (s : StateManagement) (name : String) (entry : JsValue)
    (cap : Option Nat) (t : Int) (increment : Bool) :
    Except JsError StateManagement :=
  match canAdd entry with
  | .error e => .error e
  | .ok false => .ok s
  | .ok true =>
      let content := (getArrayRecords s name false).1
      .ok (writeArrayEntries s name (capByCount cap (mergedContent content entry t increment)))

/-- A thrown `ReferenceError` escapes the request handler before any store
mutation (`_canAdd` runs first), so the store a later request sees is
unchanged; a normal return yields the new state. -/
def orKeep (s : StateManagement) : Except JsError StateManagement → StateManagement
  | .ok s1 => s1
  | .error _ => s

/-- One request-pipeline insert into a fixed collection via `addArrayEntry`
with the default `increment = true` (the `paths`/`texts`/`sizes` calls of
`saveAllImageStats`, lines 711-713). -/
def applyRecency (name : String) (cap : Option Nat) (s : StateManagement)
    (vt : JsValue × Int) : StateManagement :=
  orKeep s (addArrayEntry s name vt.1 cap vt.2 true)

/-- A sequence of such inserts, oldest first. -/
def runRecencyInserts (name : String) (cap : Option Nat) (s : StateManagement)
    (vts : List (JsValue × Int)) : StateManagement :=
  vts.foldl (applyRecency name cap) s

/-- One insert via `addArrayCountEntry` with `increment = true` (the
`sizes-all`/`references` calls, lines 714-717). -/
def applyCount (name : String) (cap : Option Nat) (s : StateManagement)
    (vt : JsValue × Int) : StateManagement :=
  orKeep s (addArrayCountEntry s name vt.1 cap vt.2 true)

/-- A mixed insert: the flag picks `addArrayEntry` (true) or
`addArrayCountEntry` (false). -/
def applyEither (name : String) (cap : Option Nat) (s : StateManagement)
    (op : Bool × JsValue × Int) : StateManagement :=
  if op.1 then applyRecency name cap s (op.2.1, op.2.2)
  else applyCount name cap s (op.2.1, op.2.2)

/-- A sequence of mixed inserts into one collection at one capacity. -/
def runEitherInserts (name : String) (cap : Option Nat) (s : StateManagement)
    (ops : List (Bool × JsValue × Int)) : StateManagement :=
  ops.foldl (applyEither name cap) s

/-- `sendRecentTexts` (lines 735-737): `getArrayEntries('texts')` with the
default `map = true`, `order = true`. -/
def sendRecentTexts (s : StateManagement) : List JsValue × StateManagement :=
  getArrayEntriesMapped s "texts" true

/-- `sendRecentPaths` (lines 744-746). -/
def sendRecentPaths (s : StateManagement) : List JsValue × StateManagement :=
  getArrayEntriesMapped s "paths" true

/-- `sendRecentSizes` (lines 752-754). -/
def sendRecentSizes (s : StateManagement) : List JsValue × StateManagement :=
  getArrayEntriesMapped s "sizes" true

/-- `sendTopSizes` (lines 761-765): read `sizes-all` unmapped and unordered,
sort with the boolean comparator `(a, b) => a.count < b.count` (a no-op, see
`jsSortNonNeg`), and project each record to `Object.assign({n: x.count},
x.entry)` — modelled as the pair (count, entry fields source). -/
def sendTopSizes (s : StateManagement) : List (Nat × JsValue) × StateManagement :=
  let res := getArrayRecords s "sizes-all" false
  ((jsSortNonNeg res.1).map (fun x => (x.count, x.entry)), res.2)

/-- `sendTopReferences` (lines 772-776): same read on `references`, projected
to `{ ref: x.entry, n: x.count }`. -/
def sendTopReferences (s : StateManagement) : List (JsValue × Nat) × StateManagement :=
  let res := getArrayRecords s "references" false
  ((jsSortNonNeg res.1).map (fun x => (x.entry, x.count)), res.2)

/-- `sendSecondHits` (lines 782-807).  The source reads the clock twice in a
row (`const adjusted = new Date(); const current = new Date();`, lines
790-791); no time passes between adjacent statements in the embedding, so both
reads are the one argument `now`.  Each `adjusted.setSeconds(adjusted.getSeconds() - 5)`
subtracts exactly 5000 ms (the seconds component rolls over, milliseconds are
kept).  The filter predicates compare the numeric `x.time` against the `Date`
objects, which `<`/`>` coerce to their millisecond values. -/
def sendSecondHits (s : StateManagement) (now : Int) :
    List (String × Nat) × StateManagement :=
  let res := getArrayRecords s "hits" true
  let all := res.1
  let five := all.filter (fun x => decide (now - 5000 < x.time ∧ x.time < now))
  let ten := all.filter (fun x => decide (now - 10000 < x.time ∧ x.time < now))
  let fifteen := all.filter (fun x => decide (now - 15000 < x.time ∧ x.time < now))
  ([("5s", five.length), ("10s", ten.length), ("15s", fifteen.length)],
    writeArrayEntries res.2 "hits" fifteen)

/-- `clearAllStats` (lines 814-823): remove the entries of all six
collections. -/
def clearAllStats (s : StateManagement) : StateManagement :=
  removeArrayEntries (removeArrayEntries (removeArrayEntries (removeArrayEntries
    (removeArrayEntries (removeArrayEntries s "hits") "paths") "texts") "sizes")
    "sizes-all") "references"

/-- A process restart over the same durable location: the constructor (lines
296-313) starts with `localPersistance = {}` and leaves existing collection
files untouched (`mkdirSync` only ensures the folder). -/
def restart (s : StateManagement) : StateManagement :=
  ⟨s.location, s.filePersistance, fun _ => none, s.disk⟩

/-- The store mutators of the durability contract: insert (either flavour),
full replace (`writeArrayEntries`, used by the hit compaction, line 804) and
clear (`removeArrayEntries`). -/
inductive StoreMut where
  | recEntry : JsValue → Option Nat → Int → Bool → StoreMut
  | recCount : JsValue → Option Nat → Int → Bool → StoreMut
  | replaceAll : List EntryRecord → StoreMut
  | clearEntries : StoreMut

/-- Apply one mutator to a named collection. -/
def applyMut (name : String) (s : StateManagement) : StoreMut → StateManagement
  | .recEntry v cap t inc => orKeep s (addArrayEntry s name v cap t inc)
  | .recCount v cap t inc => orKeep s (addArrayCountEntry s name v cap t inc)
  | .replaceAll rs => writeArrayEntries s name rs
  | .clearEntries => removeArrayEntries s name

/-- A mutator that performs a write: inserts must pass the `_canAdd` guard
(rejected inserts return before touching the store, line 323). -/
def mutWrites : StoreMut → Prop
  | .recEntry v _ _ _ => canAdd v = .ok true
  | .recCount v _ _ _ => canAdd v = .ok true
  | .replaceAll _ => True
  | .clearEntries => True

/-- The "hits" state of the C1 scenario: exactly four records, pushed by
`addArrayEntry('hits', path, null, false)` (line 710) at 20 s, 12 s, 7 s and
3 s before the query instant `now`, memory-only mode. -/
def hitsState (now : Int) (e1 e2 e3 e4 : JsValue) : StateManagement :=
  ⟨"persistance", false,
    (fun n =>
      if n = "hits" then
        some [⟨e1, now - 20000, 1⟩, ⟨e2, now - 12000, 1⟩, ⟨e3, now - 7000, 1⟩,
          ⟨e4, now - 3000, 1⟩]
      else none),
    fun _ => none⟩

instance {ε α : Type} [DecidableEq ε] [DecidableEq α] : DecidableEq (Except ε α)
  | .error a, .error b =>
      if h : a = b then .isTrue (by rw [h]) else .isFalse (by simp [h])
  | .error _, .ok _ => .isFalse (by simp)
  | .ok _, .error _ => .isFalse (by simp)
  | .ok a, .ok b =>
      if h : a = b then .isTrue (by rw [h]) else .isFalse (by simp [h])

/-- The effect of one `addArrayEntry` call with `increment = true` on the
affected collection's content: a no-op unless the `_canAdd` guard passes,
otherwise merge-or-push followed by recency capping. -/
def recencyStep (cap : Option Nat) (vt : JsValue × Int) (l : List EntryRecord) :
    List EntryRecord :=
  if canAdd vt.1 = Except.ok true then capByTime cap (mergedContent l vt.1 vt.2 true) else l

/-- The effect of one `addArrayCountEntry` call with `increment = true` on the
affected collection's content. -/
def countStep (cap : Option Nat) (vt : JsValue × Int) (l : List EntryRecord) :
    List EntryRecord :=
  if canAdd vt.1 = Except.ok true then capByCount cap (mergedContent l vt.1 vt.2 true) else l

/-- The content effect of a mixed insert. -/
def eitherStep (cap : Option Nat) (op : Bool × JsValue × Int) (l : List EntryRecord) :
    List EntryRecord :=
  if op.1 then recencyStep cap (op.2.1, op.2.2) l else countStep cap (op.2.1, op.2.2) l

/-! ### Helper lemmas about the store primitives -/

theorem getArrayRecords_no_order (s : StateManagement) (name : String) :
    getArrayRecords s name false = (getContent s name, s) := rfl

theorem getContent_writeArrayEntries (s : StateManagement) (name : String)
    (l : List EntryRecord) :
    getContent (writeArrayEntries s name l) name = l := by
  cases hp : s.filePersistance <;>
    simp [getContent, writeArrayEntries, updateSlot, hp]

theorem getContent_emptyState (persist : Bool) (name : String) :
    getContent (emptyState persist) name = [] := by
  cases persist <;> simp [getContent, emptyState]

theorem getContent_applyRecency (name : String) (cap : Option Nat)
    (s : StateManagement) (vt : JsValue × Int) :
    getContent (applyRecency name cap s vt) name
      = recencyStep cap vt (getContent s name) := by
  cases h : canAdd vt.1 with
  | error e =>
      simp [applyRecency, addArrayEntry, orKeep, recencyStep, h]
  | ok b =>
      cases b with
      | false => simp [applyRecency, addArrayEntry, orKeep, recencyStep, h]
      | true =>
          simp [applyRecency, addArrayEntry, orKeep, recencyStep, h,
            getArrayRecords_no_order, getContent_writeArrayEntries]

theorem getContent_applyCount (name : String) (cap : Option Nat)
    (s : StateManagement) (vt : JsValue × Int) :
    getContent (applyCount name cap s vt) name
      = countStep cap vt (getContent s name) := by
  cases h : canAdd vt.1 with
  | error e =>
      simp [applyCount, addArrayCountEntry, orKeep, countStep, h]
  | ok b =>
      cases b with
      | false => simp [applyCount, addArrayCountEntry, orKeep, countStep, h]
      | true =>
          simp [applyCount, addArrayCountEntry, orKeep, countStep, h,
            getArrayRecords_no_order, getContent_writeArrayEntries]

theorem getContent_applyEither (name : String) (cap : Option Nat)
    (s : StateManagement) (op : Bool × JsValue × Int) :
    getContent (applyEither name cap s op) name
      = eitherStep cap op (getContent s name) := by
  cases h : op.1 <;>
    simp [applyEither, eitherStep, h, getContent_applyRecency, getContent_applyCount]

theorem getContent_runRecencyInserts (name : String) (cap : Option Nat)
    (vts : List (JsValue × Int)) :
    ∀ s : StateManagement,
      getContent (runRecencyInserts name cap s vts) name
        = vts.foldl (fun l vt => recencyStep cap vt l) (getContent s name) := by
  induction vts with
  | nil => intro s; rfl
  | cons vt vts ih =>
      intro s
      show getContent (runRecencyInserts name cap (applyRecency name cap s vt) vts) name = _
      rw [ih, getContent_applyRecency, List.foldl_cons]

theorem getContent_runEitherInserts (name : String) (cap : Option Nat)
    (ops : List (Bool × JsValue × Int)) :
    ∀ s : StateManagement,
      getContent (runEitherInserts name cap s ops) name
        = ops.foldl (fun l op => eitherStep cap op l) (getContent s name) := by
  induction ops with
  | nil => intro s; rfl
  | cons op ops ih =>
      intro s
      show getContent (runEitherInserts name cap (applyEither name cap s op) ops) name = _
      rw [ih, getContent_applyEither, List.foldl_cons]

/-! ### Lemmas about the merge step -/

theorem incrementFirst_eq_some (t : Int) (v : JsValue) :
    ∀ (l l' : List EntryRecord), incrementFirst t v l = some l' →
      ∃ l1 r l2, l = l1 ++ r :: l2 ∧ r.entry = v ∧ (∀ x ∈ l1, x.entry ≠ v) ∧
        l' = l1 ++ ⟨v, t, r.count + 1⟩ :: l2 := by
  intro l
  induction l with
  | nil => intro l' h; simp [incrementFirst] at h
  | cons r rs ih =>
      intro l' h
      by_cases he : r.entry = v
      · refine ⟨[], r, rs, by simp, he, by simp, ?_⟩
        simp [incrementFirst, he] at h
        subst he
        simp [← h]
      · simp [incrementFirst, he] at h
        obtain ⟨l0, h0, rfl⟩ := h
        obtain ⟨l1, r1, l2, hsplit, hentry, hfresh, hres⟩ := ih l0 h0
        exact ⟨r :: l1, r1, l2, by simp [hsplit], hentry,
          by simpa [he] using hfresh, by simp [hres]⟩

theorem incrementFirst_eq_none (t : Int) (v : JsValue) :
    ∀ l : List EntryRecord, incrementFirst t v l = none ↔ ∀ x ∈ l, x.entry ≠ v := by
  intro l
  induction l with
  | nil => simp [incrementFirst]
  | cons r rs ih =>
      by_cases he : r.entry = v
      · simp [incrementFirst, he]
      · simp [incrementFirst, he, ih]

/-! ### Lemmas about the two eviction sorts -/

theorem freqLe_refl (x : EntryRecord) : freqLe x x :=
  Or.inr ⟨rfl, le_refl _⟩

theorem sortCountDesc_last_min (l : List EntryRecord) (h : l ≠ []) :
    ∃ e, sortCountDesc l = (sortCountDesc l).dropLast ++ [e] ∧ e ∈ l ∧
      ∀ x ∈ l, freqLe x e := by
  have hperm : List.Perm (sortCountDesc l) l := List.perm_insertionSort freqLe l
  have hne : sortCountDesc l ≠ [] := by
    intro hnil
    apply h
    apply List.length_eq_zero.mp
    have hl := List.length_insertionSort freqLe l
    rw [show List.insertionSort freqLe l = sortCountDesc l from rfl, hnil] at hl
    simpa using hl.symm
  refine ⟨(sortCountDesc l).getLast hne, (List.dropLast_append_getLast hne).symm, ?_, ?_⟩
  · exact hperm.mem_iff.mp (List.getLast_mem hne)
  · intro x hx
    have hxs : x ∈ sortCountDesc l := hperm.mem_iff.mpr hx
    have hsorted : List.Sorted freqLe (sortCountDesc l) :=
      List.sorted_insertionSort freqLe l
    rw [← List.dropLast_append_getLast hne] at hsorted hxs
    rcases List.mem_append.mp hxs with hx1 | hx2
    · have := (List.pairwise_append.mp hsorted).2.2
      exact this x hx1 _ (List.mem_singleton_self _)
    · rw [List.mem_singleton.mp hx2]
      exact freqLe_refl _

theorem length_incrementFirst (t : Int) (v : JsValue) (l l' : List EntryRecord)
    (h : incrementFirst t v l = some l') : l'.length = l.length := by
  obtain ⟨l1, r, l2, hsplit, _, _, hres⟩ := incrementFirst_eq_some t v l l' h
  rw [hres, hsplit]
  simp

theorem length_mergedContent_le (l : List EntryRecord) (v : JsValue) (t : Int)
    (inc : Bool) : (mergedContent l v t inc).length ≤ l.length + 1 := by
  unfold mergedContent
  cases inc with
  | false => simp
  | true =>
      cases h : incrementFirst t v l with
      | none => simp
      | some c => simp [length_incrementFirst t v l c h]

theorem length_capByTime_le (k : Nat) (l : List EntryRecord)
    (h : l.length ≤ k + 1) : (capByTime (some k) l).length ≤ k := by
  simp only [capByTime]
  by_cases hk : k < l.length
  · rw [if_pos hk]
    have hs : (sortTimeDesc l).length = l.length :=
      List.length_insertionSort recencyLe l
    rw [List.length_dropLast, hs]
    omega
  · rw [if_neg hk]
    omega

theorem length_capByCount_le (k : Nat) (l : List EntryRecord)
    (h : l.length ≤ k + 1) : (capByCount (some k) l).length ≤ k := by
  simp only [capByCount]
  by_cases hk : k < l.length
  · rw [if_pos hk]
    have hs : (sortCountDesc l).length = l.length :=
      List.length_insertionSort freqLe l
    rw [List.length_dropLast, hs]
    omega
  · rw [if_neg hk]
    omega

theorem length_eitherStep_le (k : Nat) (op : Bool × JsValue × Int)
    (l : List EntryRecord) (h : l.length ≤ k) :
    (eitherStep (some k) op l).length ≤ k := by
  have hm : (mergedContent l op.2.1 op.2.2 true).length ≤ k + 1 :=
    le_trans (length_mergedContent_le l op.2.1 op.2.2 true) (by omega)
  unfold eitherStep recencyStep countStep
  by_cases hadd : canAdd op.2.1 = Except.ok true
  · cases hop : op.1 <;>
      simp [hop, hadd, length_capByTime_le _ _ hm, length_capByCount_le _ _ hm]
  · cases hop : op.1 <;> simp [hop, hadd, h]

/-- C3: for every collection with a capacity `k` and every sequence of inserts
via `addArrayEntry` or `addArrayCountEntry` (any values, any clock readings,
either storage mode), the number of stored records is at most `k` after each
completed write — every prefix of a request sequence is itself a sequence of
inserts, so the bound after each write is the bound after an arbitrary
sequence. -/
theorem capacity_never_exceeded (persist : Bool) (name : String) (k : Nat)
    (ops : List (Bool × JsValue × Int)) :
    (getContent (runEitherInserts name (some k) (emptyState persist) ops) name).length ≤ k := by
  rw [getContent_runEitherInserts, getContent_emptyState]
  have hfold : ∀ (l : List EntryRecord), l.length ≤ k →
      (ops.foldl (fun l op => eitherStep (some k) op l) l).length ≤ k := by
    induction ops with
    | nil => intro l h; simpa using h
    | cons op ops ih =>
        intro l h
        rw [List.foldl_cons]
        exact ih _ (length_eitherStep_le k op l h)
  exact hfold [] (by simp)

/-! ### No-duplicate-entry invariant -/

theorem entries_incrementFirst (t : Int) (v : JsValue) (l l' : List EntryRecord)
    (h : incrementFirst t v l = some l') :
    l'.map (·.entry) = l.map (·.entry) := by
  obtain ⟨l1, r, l2, hsplit, hentry, _, hres⟩ := incrementFirst_eq_some t v l l' h
  rw [hres, hsplit]
  simp [hentry]

theorem nodup_mergedContent (l : List EntryRecord) (v : JsValue) (t : Int)
    (hN : (l.map (·.entry)).Nodup) :
    ((mergedContent l v t true).map (·.entry)).Nodup := by
  unfold mergedContent
  cases h : incrementFirst t v l with
  | some c =>
      simpa [entries_incrementFirst t v l c h] using hN
  | none =>
      have hv : v ∉ l.map (·.entry) := by
        intro hmem
        obtain ⟨x, hx, hxe⟩ := List.mem_map.mp hmem
        exact (incrementFirst_eq_none t v l).mp h x hx hxe
      simp only [if_pos trivial, List.map_append, List.map_cons, List.map_nil]
      rw [List.nodup_append]
      exact ⟨hN, List.nodup_singleton v, by simpa using hv⟩

theorem nodup_capByTime (cap : Option Nat) (l : List EntryRecord)
    (hN : (l.map (·.entry)).Nodup) :
    ((capByTime cap l).map (·.entry)).Nodup := by
  cases cap with
  | none => exact hN
  | some k =>
      simp only [capByTime]
      by_cases hk : k < l.length
      · rw [if_pos hk]
        have hperm : List.Perm (sortTimeDesc l) l := List.perm_insertionSort recencyLe l
        have h1 : ((sortTimeDesc l).map (·.entry)).Nodup :=
          ((hperm.map (·.entry)).nodup_iff).mpr hN
        exact ((List.dropLast_sublist (sortTimeDesc l)).map (·.entry)).nodup h1
      · rw [if_neg hk]; exact hN

theorem nodup_capByCount (cap : Option Nat) (l : List EntryRecord)
    (hN : (l.map (·.entry)).Nodup) :
    ((capByCount cap l).map (·.entry)).Nodup := by
  cases cap with
  | none => exact hN
  | some k =>
      simp only [capByCount]
      by_cases hk : k < l.length
      · rw [if_pos hk]
        have hperm : List.Perm (sortCountDesc l) l := List.perm_insertionSort freqLe l
        have h1 : ((sortCountDesc l).map (·.entry)).Nodup :=
          ((hperm.map (·.entry)).nodup_iff).mpr hN
        exact ((List.dropLast_sublist (sortCountDesc l)).map (·.entry)).nodup h1
      · rw [if_neg hk]; exact hN

theorem nodup_eitherStep (cap : Option Nat) (op : Bool × JsValue × Int)
    (l : List EntryRecord) (hN : (l.map (·.entry)).Nodup) :
    ((eitherStep cap op l).map (·.entry)).Nodup := by
  unfold eitherStep recencyStep countStep
  by_cases hadd : canAdd op.2.1 = Except.ok true
  · cases hop : op.1 <;>
      simp [hop, hadd, nodup_capByTime, nodup_capByCount, nodup_mergedContent, hN]
  · cases hop : op.1 <;> simp [hop, hadd, hN]

/-! ### Count-equals-multiplicity invariant (uncapped collections) -/

theorem count_append_single (hist : List JsValue) (v w : JsValue) :
    (hist ++ [v]).count w = hist.count w + if v = w then 1 else 0 := by
  rw [List.count_append, List.count_singleton']

theorem counts_mergedContent (l : List EntryRecord) (hist : List JsValue)
    (v : JsValue) (t : Int)
    (hN : (l.map (·.entry)).Nodup)
    (hc : ∀ r ∈ l, r.count = hist.count r.entry)
    (hm : ∀ w ∈ hist, ∃ r ∈ l, r.entry = w) :
    (∀ r ∈ mergedContent l v t true, r.count = (hist ++ [v]).count r.entry) ∧
    (∀ w ∈ hist ++ [v], ∃ r ∈ mergedContent l v t true, r.entry = w) := by
  unfold mergedContent
  cases h : incrementFirst t v l with
  | none =>
      have hfresh : ∀ x ∈ l, x.entry ≠ v := (incrementFirst_eq_none t v l).mp h
      have hvh : v ∉ hist := by
        intro hv
        obtain ⟨r, hr, hre⟩ := hm v hv
        exact hfresh r hr hre
      constructor
      · intro r hr
        simp only [if_pos trivial] at hr
        rcases List.mem_append.mp hr with h1 | h2
        · rw [count_append_single, if_neg fun he => hfresh r h1 he.symm, Nat.add_zero]
          exact hc r h1
        · rw [List.mem_singleton.mp h2]
          rw [count_append_single, if_pos rfl]
          simp [List.count_eq_zero.mpr hvh]
      · intro w hw
        simp only [if_pos trivial]
        rcases List.mem_append.mp hw with h1 | h2
        · obtain ⟨r, hr, hre⟩ := hm w h1
          exact ⟨r, List.mem_append_left _ hr, hre⟩
        · exact ⟨⟨v, t, 1⟩, List.mem_append_right _ (List.mem_singleton_self _),
            (List.mem_singleton.mp h2).symm⟩
  | some c =>
      obtain ⟨l1, r0, l2, hsplit, hentry, hfresh1, hres⟩ :=
        incrementFirst_eq_some t v l c h
      have hNl : ((l1 ++ r0 :: l2).map (·.entry)).Nodup := by rw [← hsplit]; exact hN
      have hv2 : ∀ x ∈ l2, x.entry ≠ v := by
        intro x hx hxe
        rw [List.map_append, List.map_cons] at hNl
        have := (List.nodup_append.mp hNl).2.1
        rw [List.nodup_cons] at this
        exact this.1 (hentry ▸ hxe ▸ List.mem_map_of_mem (·.entry) hx)
      constructor
      · intro r hr
        rw [hres] at hr
        rcases List.mem_append.mp hr with h1 | h2
        · rw [count_append_single, if_neg fun he => hfresh1 r h1 he.symm, Nat.add_zero]
          exact hc r (hsplit ▸ List.mem_append_left _ h1)
        · rcases List.mem_cons.mp h2 with h3 | h4
          · subst h3
            simp only
            rw [count_append_single, if_pos rfl]
            have hr0 : r0 ∈ l := hsplit ▸ List.mem_append_right _ (List.mem_cons_self _ _)
            rw [hc r0 hr0, hentry]
          · rw [count_append_single, if_neg fun he => hv2 r h4 he.symm, Nat.add_zero]
            exact hc r (hsplit ▸ List.mem_append_right _ (List.mem_cons_of_mem _ h4))
      · intro w hw
        rw [hres]
        rcases List.mem_append.mp hw with h1 | h2
        · obtain ⟨rr, hrr, hrre⟩ := hm w h1
          rw [hsplit] at hrr
          rcases List.mem_append.mp hrr with hl1 | hl2
          · exact ⟨rr, List.mem_append_left _ hl1, hrre⟩
          · rcases List.mem_cons.mp hl2 with he | hl2'
            · refine ⟨⟨v, t, r0.count + 1⟩,
                List.mem_append_right _ (List.mem_cons_self _ _), ?_⟩
              rw [← hrre, he, hentry]
            · exact ⟨rr, List.mem_append_right _ (List.mem_cons_of_mem _ hl2'), hrre⟩
        · exact ⟨⟨v, t, r0.count + 1⟩,
            List.mem_append_right _ (List.mem_cons_self _ _),
            (List.mem_singleton.mp h2).symm⟩

theorem nodup_fold (cap : Option Nat) (ops : List (Bool × JsValue × Int)) :
    ∀ l : List EntryRecord, (l.map (·.entry)).Nodup →
      ((ops.foldl (fun l op => eitherStep cap op l) l).map (·.entry)).Nodup := by
  induction ops with
  | nil => intro l h; simpa using h
  | cons op ops ih =>
      intro l h
      rw [List.foldl_cons]
      exact ih _ (nodup_eitherStep cap op l h)

theorem counts_fold_none (ops : List (Bool × JsValue × Int)) :
    ∀ (l : List EntryRecord) (hist : List JsValue),
      (∀ op ∈ ops, canAdd op.2.1 = Except.ok true) →
      (l.map (·.entry)).Nodup →
      (∀ r ∈ l, r.count = hist.count r.entry) →
      (∀ w ∈ hist, ∃ r ∈ l, r.entry = w) →
      ∀ r ∈ ops.foldl (fun l op => eitherStep none op l) l,
        r.count = (hist ++ ops.map (fun op => op.2.1)).count r.entry := by
  induction ops with
  | nil => intro l hist _ _ hc _ r hr; simpa using hc r hr
  | cons op ops ih =>
      intro l hist hadd hN hc hm r hr
      rw [List.foldl_cons] at hr
      have hg : canAdd op.2.1 = Except.ok true := hadd op (List.mem_cons_self _ _)
      have hstep : eitherStep none op l = mergedContent l op.2.1 op.2.2 true := by
        unfold eitherStep recencyStep countStep
        cases hop : op.1 <;> simp [hop, hg, capByTime, capByCount]
      rw [hstep] at hr
      have h2 := counts_mergedContent l hist op.2.1 op.2.2 hN hc hm
      have hrec := ih (mergedContent l op.2.1 op.2.2 true) (hist ++ [op.2.1])
        (fun o ho => hadd o (List.mem_cons_of_mem _ ho))
        (nodup_mergedContent l op.2.1 op.2.2 hN) h2.1 h2.2 r hr
      simpa [List.append_assoc] using hrec

/-- C2 (amended): over any sequence of merge-enabled inserts
(`increment = true`, either insert flavour, from an empty store) no two stored
records ever have structurally-equal entries; and provided the collection has
no capacity (`persistAmount` nil, so no record is ever evicted) the stored
count of every record equals the number of times its entry value was
inserted.  The capacity proviso is forced by the eviction counterexample
`merge_count_counterexample`. -/
theorem merge_dedup_and_counts (persist : Bool) (name : String) (cap : Option Nat)
    (ops : List (Bool × JsValue × Int))
    (hadd : ∀ op ∈ ops, canAdd op.2.1 = Except.ok true) :
    ((getContent (runEitherInserts name cap (emptyState persist) ops) name).map (·.entry)).Nodup ∧
    (cap = none →
      ∀ r ∈ getContent (runEitherInserts name cap (emptyState persist) ops) name,
        r.count = (ops.map (fun op => op.2.1)).count r.entry) := by
  rw [getContent_runEitherInserts, getContent_emptyState]
  constructor
  · exact nodup_fold cap ops [] (by simp)
  · rintro rfl r hr
    have := counts_fold_none ops [] [] hadd (by simp) (by simp) (by simp) r hr
    simpa using this

/-- Witness for `merge_dedup_and_counts` at a concrete insert sequence
(x, y, x into an uncapped merge-enabled collection). -/
theorem merge_dedup_and_counts_witness :
    ((getContent (runEitherInserts "texts" none (emptyState false)
        [(true, JsValue.vStr "x", 1), (true, JsValue.vStr "y", 2),
          (true, JsValue.vStr "x", 3)]) "texts").map (·.entry)).Nodup ∧
    ((none : Option Nat) = none →
      ∀ r ∈ getContent (runEitherInserts "texts" none (emptyState false)
        [(true, JsValue.vStr "x", 1), (true, JsValue.vStr "y", 2),
          (true, JsValue.vStr "x", 3)]) "texts",
        r.count = ([(true, JsValue.vStr "x", 1), (true, JsValue.vStr "y", 2),
          (true, JsValue.vStr "x", 3)].map (fun op => op.2.1)).count r.entry) :=
  merge_dedup_and_counts false "texts" none
    [(true, JsValue.vStr "x", 1), (true, JsValue.vStr "y", 2),
      (true, JsValue.vStr "x", 3)] (by decide)

/-- C2 counterexample: with capacity 1, inserting a, b, a (times 1, 2, 3)
evicts the record for a, so its re-insert restarts at count 1 although a was
inserted twice — the claim's "stored count equals the number of times the
value was inserted" is false as stated for capped collections. -/
theorem merge_count_counterexample :
    getContent (runRecencyInserts "paths" (some 1) (emptyState false)
        [(JsValue.vStr "a", 1), (JsValue.vStr "b", 2), (JsValue.vStr "a", 3)]) "paths"
      = [⟨JsValue.vStr "a", 3, 1⟩] ∧
    ([JsValue.vStr "a", JsValue.vStr "b", JsValue.vStr "a"].count (JsValue.vStr "a") = 2) ∧
    ¬ (∀ r ∈ getContent (runRecencyInserts "paths" (some 1) (emptyState false)
        [(JsValue.vStr "a", 1), (JsValue.vStr "b", 2), (JsValue.vStr "a", 3)]) "paths",
        r.count = [JsValue.vStr "a", JsValue.vStr "b",
          JsValue.vStr "a"].count r.entry) := by
  decide

/-- C4: when an `addArrayCountEntry` insert leaves the collection over its
capacity `k`, the write stores the frequency-sorted content minus its last
element, and that removed record `e` is one with the smallest count, with ties
on count broken towards the smallest (oldest) timestamp: every record `x` of
the pre-eviction content has a larger count, or an equal count and a
timestamp no smaller than `e`'s. -/
theorem addArrayCountEntry_evicts_minimum (s : StateManagement) (name : String)
    (v : JsValue) (k : Nat) (t : Int) (l : List EntryRecord)
    (hv : canAdd v = Except.ok true)
    (hl : l = mergedContent (getContent s name) v t true)
    (hk : k < l.length) :
    addArrayCountEntry s name v (some k) t true
        = Except.ok (writeArrayEntries s name ((sortCountDesc l).dropLast)) ∧
    ∃ e, sortCountDesc l = (sortCountDesc l).dropLast ++ [e] ∧ e ∈ l ∧
      ∀ x ∈ l, e.count < x.count ∨ (e.count = x.count ∧ e.time ≤ x.time) := by
  have hne : l ≠ [] := by
    intro h0
    rw [h0] at hk
    simp at hk
  obtain ⟨e, hsplit, hmem, hmin⟩ := sortCountDesc_last_min l hne
  constructor
  · simp only [addArrayCountEntry, hv, getArrayRecords_no_order, ← hl, capByCount,
      if_pos hk]
  · refine ⟨e, hsplit, hmem, ?_⟩
    intro x hx
    rcases hmin x hx with h1 | ⟨h2, h3⟩
    · exact Or.inl h1
    · exact Or.inr ⟨h2.symm, h3⟩

/-- Witness for `addArrayCountEntry_evicts_minimum`: stored records with
counts 1, 1, 4, an insert that merges the third up to count 5 — counts
(1, 1, 5) at capacity 2 — so the evicted record is the older of the two
count-1 records, never the count-5 one. -/
theorem addArrayCountEntry_evicts_minimum_witness :
    addArrayCountEntry
        (StateManagement.mk "persistance" false
          (fun n => if n = "references" then
              some [⟨JsValue.vStr "r1", 1, 1⟩, ⟨JsValue.vStr "r2", 2, 1⟩,
                ⟨JsValue.vStr "r3", 3, 4⟩]
            else none)
          (fun _ => none))
        "references" (JsValue.vStr "r3") (some 2) 4 true
      = Except.ok (writeArrayEntries
          (StateManagement.mk "persistance" false
            (fun n => if n = "references" then
                some [⟨JsValue.vStr "r1", 1, 1⟩, ⟨JsValue.vStr "r2", 2, 1⟩,
                  ⟨JsValue.vStr "r3", 3, 4⟩]
              else none)
            (fun _ => none))
          "references"
          ((sortCountDesc [⟨JsValue.vStr "r1", 1, 1⟩, ⟨JsValue.vStr "r2", 2, 1⟩,
            ⟨JsValue.vStr "r3", 4, 5⟩]).dropLast)) ∧
    ∃ e, sortCountDesc [⟨JsValue.vStr "r1", 1, 1⟩, ⟨JsValue.vStr "r2", 2, 1⟩,
          ⟨JsValue.vStr "r3", 4, 5⟩]
        = (sortCountDesc [⟨JsValue.vStr "r1", 1, 1⟩, ⟨JsValue.vStr "r2", 2, 1⟩,
            ⟨JsValue.vStr "r3", 4, 5⟩]).dropLast ++ [e] ∧
      e ∈ [⟨JsValue.vStr "r1", 1, 1⟩, ⟨JsValue.vStr "r2", 2, 1⟩,
          ⟨JsValue.vStr "r3", 4, 5⟩] ∧
      ∀ x ∈ [(⟨JsValue.vStr "r1", 1, 1⟩ : EntryRecord), ⟨JsValue.vStr "r2", 2, 1⟩,
          ⟨JsValue.vStr "r3", 4, 5⟩],
        e.count < x.count ∨ (e.count = x.count ∧ e.time ≤ x.time) :=
  addArrayCountEntry_evicts_minimum _ "references" (JsValue.vStr "r3") 2 4
    [⟨JsValue.vStr "r1", 1, 1⟩, ⟨JsValue.vStr "r2", 2, 1⟩, ⟨JsValue.vStr "r3", 4, 5⟩]
    (by decide) (by decide) (by decide)

/-! ### Recency eviction on strictly increasing timestamps -/

theorem orderedInsert_sink (a : EntryRecord) :
    ∀ l : List EntryRecord, (∀ y ∈ l, ¬ recencyLe a y) →
      List.orderedInsert recencyLe a l = l ++ [a] := by
  intro l
  induction l with
  | nil => intro _; rfl
  | cons y l ih =>
      intro h
      simp only [List.orderedInsert]
      rw [if_neg (h y (List.mem_cons_self _ _))]
      rw [ih (fun z hz => h z (List.mem_cons_of_mem _ hz))]
      rfl

theorem sortTimeDesc_increasing :
    ∀ l : List EntryRecord, List.Pairwise (fun a b => a.time < b.time) l →
      sortTimeDesc l = l.reverse := by
  intro l
  induction l with
  | nil => intro _; rfl
  | cons a l ih =>
      intro h
      rw [List.pairwise_cons] at h
      show List.orderedInsert recencyLe a (List.insertionSort recencyLe l) = _
      rw [show List.insertionSort recencyLe l = sortTimeDesc l from rfl, ih h.2]
      rw [orderedInsert_sink a l.reverse
        (fun y hy hle => absurd hle (not_le.mpr (h.1 y (List.mem_reverse.mp hy))))]
      rw [List.reverse_cons]

theorem recencyFold_no_evict (k : Nat) :
    ∀ (vts : List (JsValue × Int)) (acc : List EntryRecord),
      (∀ vt ∈ vts, canAdd vt.1 = Except.ok true) →
      (∀ vt ∈ vts, ∀ r ∈ acc, r.entry ≠ vt.1) →
      ((vts.map Prod.fst).Nodup) →
      acc.length + vts.length ≤ k →
      vts.foldl (fun l vt => recencyStep (some k) vt l) acc
        = acc ++ vts.map (fun vt => ⟨vt.1, vt.2, 1⟩) := by
  intro vts
  induction vts with
  | nil => intro acc _ _ _ _; simp
  | cons vt vts ih =>
      intro acc hadd hfresh hnodup hlen
      rw [List.foldl_cons]
      have hg : canAdd vt.1 = Except.ok true := hadd vt (List.mem_cons_self _ _)
      have hnone : incrementFirst vt.2 vt.1 acc = none :=
        (incrementFirst_eq_none _ _ _).mpr
          (fun x hx => hfresh vt (List.mem_cons_self _ _) x hx)
      have hstep : recencyStep (some k) vt acc = acc ++ [⟨vt.1, vt.2, 1⟩] := by
        unfold recencyStep
        rw [if_pos hg]
        have hlen1 : acc.length + vts.length + 1 ≤ k := by
          simpa [Nat.add_comm, Nat.add_assoc, Nat.add_left_comm] using hlen
        simp [mergedContent, hnone, capByTime]
        omega
      rw [hstep]
      have hnodup' : (vts.map Prod.fst).Nodup := by
        simp only [List.map_cons, List.nodup_cons] at hnodup
        exact hnodup.2
      have hvt1 : vt.1 ∉ vts.map Prod.fst := by
        simp only [List.map_cons, List.nodup_cons] at hnodup
        exact hnodup.1
      have hrec := ih (acc ++ [⟨vt.1, vt.2, 1⟩])
        (fun o ho => hadd o (List.mem_cons_of_mem _ ho))
        (by
          intro vt' hvt' r hr
          rcases List.mem_append.mp hr with h1 | h2
          · exact hfresh vt' (List.mem_cons_of_mem _ hvt') r h1
          · rw [List.mem_singleton.mp h2]
            intro he
            have he' : vt.1 = vt'.1 := he
            apply hvt1
            rw [he']
            exact List.mem_map_of_mem Prod.fst hvt')
        hnodup'
        (by
          simp only [List.length_append, List.length_cons, List.length_nil,
            List.length_singleton] at hlen ⊢
          omega)
      rw [hrec]
      simp

/-- Inserting k+1 distinct addable entries with strictly increasing
timestamps into an empty capacity-k collection via `addArrayEntry` evicts
exactly the first-inserted entry and retains the most recent k (the stored
entries are the inserted values minus the first, most recent first after the
eviction sort). -/
theorem recency_eviction_k_plus_one (persist : Bool) (name : String) (k : Nat)
    (vts : List (JsValue × Int))
    (hlen : vts.length = k + 1)
    (hadd : ∀ vt ∈ vts, canAdd vt.1 = Except.ok true)
    (hnodup : (vts.map Prod.fst).Nodup)
    (hinc : List.Pairwise (fun a b : JsValue × Int => a.2 < b.2) vts) :
    (getContent (runRecencyInserts name (some k) (emptyState persist) vts) name).map (·.entry)
      = ((vts.map Prod.fst).tail).reverse := by
  rw [getContent_runRecencyInserts, getContent_emptyState]
  have hne : vts ≠ [] := by
    intro h0
    rw [h0] at hlen
    simp at hlen
  obtain ⟨front, lastv, hvts⟩ : ∃ front lastv, vts = front ++ [lastv] :=
    ⟨vts.dropLast, vts.getLast hne, (List.dropLast_append_getLast hne).symm⟩
  subst hvts
  have hfl : front.length = k := by simpa using hlen
  have hnodup2 : ((front.map Prod.fst) ++ [lastv].map Prod.fst).Nodup := by
    rw [← List.map_append]
    exact hnodup
  have hfrontnodup : (front.map Prod.fst).Nodup := (List.nodup_append.mp hnodup2).1
  have hdisj := (List.nodup_append.mp hnodup2).2.2
  rw [List.foldl_append, List.foldl_cons, List.foldl_nil]
  have hfront := recencyFold_no_evict k front []
    (fun vt h => hadd vt (List.mem_append_left _ h))
    (by intro vt _ r hr; simp at hr)
    hfrontnodup
    (by simp [hfl])
  rw [hfront]
  simp only [List.nil_append]
  have hg : canAdd lastv.1 = Except.ok true :=
    hadd lastv (List.mem_append_right _ (List.mem_singleton_self _))
  have hnone : incrementFirst lastv.2 lastv.1
      (front.map (fun vt => (⟨vt.1, vt.2, 1⟩ : EntryRecord))) = none := by
    apply (incrementFirst_eq_none _ _ _).mpr
    intro x hx
    obtain ⟨vt, hvt, rfl⟩ := List.mem_map.mp hx
    intro he
    have he' : vt.1 = lastv.1 := he
    apply hdisj (a := lastv.1)
    · rw [← he']
      exact List.mem_map_of_mem Prod.fst hvt
    · simp
  have hstep : recencyStep (some k) lastv
        (front.map (fun vt => (⟨vt.1, vt.2, 1⟩ : EntryRecord)))
      = (sortTimeDesc ((front ++ [lastv]).map
          (fun vt => (⟨vt.1, vt.2, 1⟩ : EntryRecord)))).dropLast := by
    unfold recencyStep
    rw [if_pos hg]
    have hmerged : mergedContent
        (front.map (fun vt => (⟨vt.1, vt.2, 1⟩ : EntryRecord))) lastv.1 lastv.2 true
        = (front ++ [lastv]).map (fun vt => (⟨vt.1, vt.2, 1⟩ : EntryRecord)) := by
      simp [mergedContent, hnone]
    rw [hmerged]
    simp only [capByTime]
    rw [if_pos (by simp [hfl])]
  rw [hstep]
  have hpair : List.Pairwise (fun a b : EntryRecord => a.time < b.time)
      ((front ++ [lastv]).map (fun vt => (⟨vt.1, vt.2, 1⟩ : EntryRecord))) :=
    (List.pairwise_map).mpr (hinc.imp (fun h => h))
  rw [sortTimeDesc_increasing _ hpair]
  rw [List.dropLast_reverse]
  rw [List.map_reverse, List.map_tail, List.map_map]
  rfl

/-! ### Durability contract -/

theorem getArrayRecords_fst (s : StateManagement) (name : String) (o : Bool) :
    (getArrayRecords s name o).1 = getContent s name := by
  cases o <;> rfl

theorem applyMut_is_write (s : StateManagement) (name : String) (m : StoreMut)
    (hm : mutWrites m) :
    ∃ l, applyMut name s m = writeArrayEntries s name l := by
  cases m with
  | recEntry v cap t inc =>
      have hv : canAdd v = Except.ok true := hm
      exact ⟨capByTime cap (mergedContent (getContent s name) v t inc),
        by simp [applyMut, addArrayEntry, hv, orKeep, getArrayRecords_no_order]⟩
  | recCount v cap t inc =>
      have hv : canAdd v = Except.ok true := hm
      exact ⟨capByCount cap (mergedContent (getContent s name) v t inc),
        by simp [applyMut, addArrayCountEntry, hv, orKeep, getArrayRecords_no_order]⟩
  | replaceAll rs => exact ⟨rs, rfl⟩
  | clearEntries => exact ⟨[], rfl⟩

/-- C9: with durability enabled, every mutating call (insert via either
flavour, replace, clear) that performs a write leaves the affected
collection's durable slot holding exactly the stored record sequence (the
write went through `writeArrayEntries`, which writes the file before
returning), the in-memory store agrees with it, and a query issued after a
process restart over the same durable location returns the same data as the
query issued before the restart. -/
theorem durable_write_through (s : StateManagement) (name : String) (m : StoreMut)
    (o : Bool) (hp : s.filePersistance = true) (hm : mutWrites m) :
    ((applyMut name s m).disk name = some (getContent (applyMut name s m) name)) ∧
    ((applyMut name s m).localPersistance name
      = some (getContent (applyMut name s m) name)) ∧
    ((getArrayEntriesMapped (restart (applyMut name s m)) name o).1
      = (getArrayEntriesMapped (applyMut name s m) name o).1) := by
  obtain ⟨l, hl⟩ := applyMut_is_write s name m hm
  rw [hl]
  have hgc : getContent (writeArrayEntries s name l) name = l :=
    getContent_writeArrayEntries s name l
  have hpd : (writeArrayEntries s name l).disk name = some l := by
    simp [writeArrayEntries, hp, updateSlot]
  have hpl : (writeArrayEntries s name l).localPersistance name = some l := by
    simp [writeArrayEntries, updateSlot]
  refine ⟨by rw [hgc]; exact hpd, by rw [hgc]; exact hpl, ?_⟩
  have hfp : (writeArrayEntries s name l).filePersistance = true := hp
  have hre : getContent (restart (writeArrayEntries s name l)) name = l := by
    simp [getContent, restart, hfp, hpd]
  simp only [getArrayEntriesMapped, getArrayRecords_fst, hre, hgc]

/-- Witness for `durable_write_through`: one path insert into a durable
store, then a restart and an ordered mapped query. -/
theorem durable_write_through_witness :
    ((applyMut "paths" (emptyState true)
        (StoreMut.recEntry (JsValue.vStr "p") (some 10) 1 true)).disk "paths"
      = some (getContent (applyMut "paths" (emptyState true)
          (StoreMut.recEntry (JsValue.vStr "p") (some 10) 1 true)) "paths")) ∧
    ((applyMut "paths" (emptyState true)
        (StoreMut.recEntry (JsValue.vStr "p") (some 10) 1 true)).localPersistance "paths"
      = some (getContent (applyMut "paths" (emptyState true)
          (StoreMut.recEntry (JsValue.vStr "p") (some 10) 1 true)) "paths")) ∧
    ((getArrayEntriesMapped (restart (applyMut "paths" (emptyState true)
        (StoreMut.recEntry (JsValue.vStr "p") (some 10) 1 true))) "paths" true).1
      = (getArrayEntriesMapped (applyMut "paths" (emptyState true)
          (StoreMut.recEntry (JsValue.vStr "p") (some 10) 1 true)) "paths" true).1) :=
  durable_write_through (emptyState true) "paths"
    (StoreMut.recEntry (JsValue.vStr "p") (some 10) 1 true) true rfl
    (show canAdd (JsValue.vStr "p") = Except.ok true by decide)

/-- C1: with the "hits" collection holding exactly four records at offsets
-20 s, -12 s, -7 s, -3 s from the query instant `now` (one `now` for both
`Date` reads, see `sendSecondHits`), the windowed-hits query returns
5s→1, 10s→2, 15s→3, and afterwards the backing collection stores exactly the
three records inside the 15-second window — the -20 s record is gone. -/
theorem secondHits_windows (now : Int) (e1 e2 e3 e4 : JsValue) :
    (sendSecondHits (hitsState now e1 e2 e3 e4) now).1
      = [("5s", 1), ("10s", 2), ("15s", 3)] ∧
    (sendSecondHits (hitsState now e1 e2 e3 e4) now).2.localPersistance "hits"
      = some [⟨e2, now - 12000, 1⟩, ⟨e3, now - 7000, 1⟩, ⟨e4, now - 3000, 1⟩] := by
  constructor <;>
    simp [sendSecondHits, getArrayRecords, getContent, hitsState, jsSortNonNeg,
      writeArrayEntries, updateSlot, List.filter]

/-- C6 is false of the code: after inserting text a at time 1 and text b at
time 2 (stored in that order), the recent-texts query returns [a, b] — the
boolean comparator `(x, y) => x.time < y.time` never reorders — although a
timestamp-descending read (most recent first) would return [b, a]. -/
theorem recentTexts_not_time_ordered :
    (sendRecentTexts (runRecencyInserts "texts" (some 10) (emptyState false)
        [(JsValue.vStr "a", 1), (JsValue.vStr "b", 2)])).1
      = [JsValue.vStr "a", JsValue.vStr "b"] ∧
    (sendRecentTexts (runRecencyInserts "texts" (some 10) (emptyState false)
        [(JsValue.vStr "a", 1), (JsValue.vStr "b", 2)])).1
      ≠ (sortTimeDesc (getContent (runRecencyInserts "texts" (some 10)
          (emptyState false) [(JsValue.vStr "a", 1), (JsValue.vStr "b", 2)])
          "texts")).map (·.entry) := by
  decide

/-- C7 is false of the code: with stored counts 1 (older) and 2 on
"sizes-all" and "references", the top queries return the count-1 element
first — the boolean comparator `(x, y) => x.count < y.count` never reorders —
so the output is not sorted descending by occurrence count. -/
theorem topQueries_not_count_ordered :
    (sendTopSizes (runEitherInserts "sizes-all" (some 10) (emptyState false)
        [(false, JsValue.vSize "100" "100", 1), (false, JsValue.vSize "200" "200", 2),
          (false, JsValue.vSize "200" "200", 3)])).1
      = [(1, JsValue.vSize "100" "100"), (2, JsValue.vSize "200" "200")] ∧
    ¬ List.Sorted (fun a b : Nat × JsValue => b.1 ≤ a.1)
        (sendTopSizes (runEitherInserts "sizes-all" (some 10) (emptyState false)
          [(false, JsValue.vSize "100" "100", 1), (false, JsValue.vSize "200" "200", 2),
            (false, JsValue.vSize "200" "200", 3)])).1 ∧
    (sendTopReferences (runEitherInserts "references" (some 10) (emptyState false)
        [(false, JsValue.vStr "r1", 1), (false, JsValue.vStr "r2", 2),
          (false, JsValue.vStr "r2", 3)])).1
      = [(JsValue.vStr "r1", 1), (JsValue.vStr "r2", 2)] ∧
    ¬ List.Sorted (fun a b : JsValue × Nat => b.2 ≤ a.2)
        (sendTopReferences (runEitherInserts "references" (some 10) (emptyState false)
          [(false, JsValue.vStr "r1", 1), (false, JsValue.vStr "r2", 2),
            (false, JsValue.vStr "r2", 3)])).1 := by
  decide

/-- C8 is false of the code for lists: a null, undefined or empty-string
value is indeed a silent no-op for both insert flavours, but an empty list
(in fact any array) makes `_canAdd` throw a `ReferenceError` — its guard
reads `a.length` where no `a` is in scope — instead of being silently
ignored. -/
theorem insert_empty_list_throws :
    addArrayEntry (emptyState false) "texts" (JsValue.vArr 0) (some 10) 5 true
      = Except.error JsError.referenceError ∧
    addArrayCountEntry (emptyState false) "references" (JsValue.vArr 0) (some 10) 5 true
      = Except.error JsError.referenceError ∧
    addArrayEntry (emptyState false) "texts" JsValue.vNull (some 10) 5 true
      = Except.ok (emptyState false) ∧
    addArrayEntry (emptyState false) "texts" JsValue.vUndefined (some 10) 5 true
      = Except.ok (emptyState false) ∧
    addArrayEntry (emptyState false) "texts" (JsValue.vStr "") (some 10) 5 true
      = Except.ok (emptyState false) :=
  ⟨rfl, rfl, rfl, rfl, rfl⟩

/-- C10 (amended): in memory-only mode a `getArrayEntries` read never adds,
removes, modifies — or even reorders — stored records: the read returns the
stored content and leaves the whole store state exactly as it was, because the
in-place "sort" with the boolean comparator writes back the untouched
sequence.  The amendment drops the claim's "rather than the pre-read order":
the sort's output IS the pre-read order (see `order_read_counterexample`). -/
theorem memory_read_leaves_store_unchanged (s : StateManagement) (name : String)
    (o : Bool) (hmem : s.filePersistance = false) :
    (getArrayRecords s name o).1 = getContent s name ∧
    (getArrayRecords s name o).2 = s := by
  refine ⟨getArrayRecords_fst s name o, ?_⟩
  obtain ⟨loc, fp, lp, dk⟩ := s
  have hfp : fp = false := hmem
  subst hfp
  cases o with
  | false => rfl
  | true =>
      cases hslot : lp name with
      | none => simp [getArrayRecords, hslot]
      | some l =>
          simp only [getArrayRecords, jsSortNonNeg, getContent, hslot,
            Bool.and_self, Bool.true_and, Bool.and_true, Bool.false_and,
            Bool.not_false, Option.isSome_some, if_true, Option.getD_some]
          have hred : (if false = true then (dk name).getD [] else l) = l := rfl
          rw [hred]
          congr 1
          funext n
          simp only [updateSlot]
          by_cases hn : n = name
          · subst hn
            rw [if_pos rfl, hslot]
          · rw [if_neg hn]

/-- Witness for `memory_read_leaves_store_unchanged` at a concrete
memory-only store holding two texts records. -/
theorem memory_read_leaves_store_unchanged_witness :
    (getArrayRecords (runRecencyInserts "texts" (some 10) (emptyState false)
        [(JsValue.vStr "a", 1), (JsValue.vStr "b", 2)]) "texts" true).1
      = getContent (runRecencyInserts "texts" (some 10) (emptyState false)
          [(JsValue.vStr "a", 1), (JsValue.vStr "b", 2)]) "texts" ∧
    (getArrayRecords (runRecencyInserts "texts" (some 10) (emptyState false)
        [(JsValue.vStr "a", 1), (JsValue.vStr "b", 2)]) "texts" true).2
      = runRecencyInserts "texts" (some 10) (emptyState false)
          [(JsValue.vStr "a", 1), (JsValue.vStr "b", 2)] :=
  memory_read_leaves_store_unchanged
    (runRecencyInserts "texts" (some 10) (emptyState false)
      [(JsValue.vStr "a", 1), (JsValue.vStr "b", 2)]) "texts" true rfl

/-- C10 counterexample to the claim's "permutes the stored sequence in place,
so the stored order after a read equals the sort's output rather than the
pre-read order": with records stored in ascending-time order, an ordered read
leaves the stored sequence exactly equal to the pre-read order, while a
genuine time-descending sort of it would differ. -/
theorem order_read_counterexample :
    (getArrayRecords (runRecencyInserts "paths" (some 10) (emptyState false)
        [(JsValue.vStr "p1", 5), (JsValue.vStr "p2", 9)]) "paths"
        true).2.localPersistance "paths"
      = (runRecencyInserts "paths" (some 10) (emptyState false)
          [(JsValue.vStr "p1", 5), (JsValue.vStr "p2", 9)]).localPersistance "paths" ∧
    (runRecencyInserts "paths" (some 10) (emptyState false)
        [(JsValue.vStr "p1", 5), (JsValue.vStr "p2", 9)]).localPersistance "paths"
      = some [⟨JsValue.vStr "p1", 5, 1⟩, ⟨JsValue.vStr "p2", 9, 1⟩] ∧
    sortTimeDesc [⟨JsValue.vStr "p1", 5, 1⟩, ⟨JsValue.vStr "p2", 9, 1⟩]
      ≠ [⟨JsValue.vStr "p1", 5, 1⟩, ⟨JsValue.vStr "p2", 9, 1⟩] := by
  decide

theorem recencyLe_refl (x : EntryRecord) : recencyLe x x := le_refl _

theorem sortTimeDesc_last_min (l : List EntryRecord) (h : l ≠ []) :
    ∃ e, sortTimeDesc l = (sortTimeDesc l).dropLast ++ [e] ∧ e ∈ l ∧
      ∀ x ∈ l, recencyLe x e := by
  have hperm : List.Perm (sortTimeDesc l) l := List.perm_insertionSort recencyLe l
  have hne : sortTimeDesc l ≠ [] := by
    intro hnil
    apply h
    apply List.length_eq_zero.mp
    have hl := List.length_insertionSort recencyLe l
    rw [show List.insertionSort recencyLe l = sortTimeDesc l from rfl, hnil] at hl
    simpa using hl.symm
  refine ⟨(sortTimeDesc l).getLast hne, (List.dropLast_append_getLast hne).symm, ?_, ?_⟩
  · exact hperm.mem_iff.mp (List.getLast_mem hne)
  · intro x hx
    have hxs : x ∈ sortTimeDesc l := hperm.mem_iff.mpr hx
    have hsorted : List.Sorted recencyLe (sortTimeDesc l) :=
      List.sorted_insertionSort recencyLe l
    rw [← List.dropLast_append_getLast hne] at hsorted hxs
    rcases List.mem_append.mp hxs with hx1 | hx2
    · have := (List.pairwise_append.mp hsorted).2.2
      exact this x hx1 _ (List.mem_singleton_self _)
    · rw [List.mem_singleton.mp hx2]
      exact recencyLe_refl _

theorem addArrayEntry_evicts_oldest (s : StateManagement) (name : String)
    (v : JsValue) (k : Nat) (t : Int) (l : List EntryRecord)
    (hv : canAdd v = Except.ok true)
    (hl : l = mergedContent (getContent s name) v t true)
    (hk : k < l.length) :
    addArrayEntry s name v (some k) t true
        = Except.ok (writeArrayEntries s name ((sortTimeDesc l).dropLast)) ∧
    ∃ e, sortTimeDesc l = (sortTimeDesc l).dropLast ++ [e] ∧ e ∈ l ∧
      ∀ x ∈ l, e.time ≤ x.time := by
  have hne : l ≠ [] := by
    intro h0
    rw [h0] at hk
    simp at hk
  obtain ⟨e, hsplit, hmem, hmin⟩ := sortTimeDesc_last_min l hne
  constructor
  · simp only [addArrayEntry, hv, getArrayRecords_no_order, ← hl, capByTime,
      if_pos hk]
  · exact ⟨e, hsplit, hmem, fun x hx => hmin x hx⟩

/-- C5: recency eviction: when an `addArrayEntry` insert leaves the
collection over capacity `k`, the write stores the time-sorted content minus
its last element, a removed record `e` with the smallest timestamp of the
pre-eviction content; and inserting k+1 distinct addable entries with
strictly increasing timestamps into an empty capacity-k collection evicts
exactly the first-inserted entry and retains the most recent k. -/
theorem recency_eviction_spec :
    (∀ (s : StateManagement) (name : String) (v : JsValue) (k : Nat) (t : Int)
        (l : List EntryRecord),
      canAdd v = Except.ok true →
      l = mergedContent (getContent s name) v t true →
      k < l.length →
      addArrayEntry s name v (some k) t true
          = Except.ok (writeArrayEntries s name ((sortTimeDesc l).dropLast)) ∧
      ∃ e, sortTimeDesc l = (sortTimeDesc l).dropLast ++ [e] ∧ e ∈ l ∧
        ∀ x ∈ l, e.time ≤ x.time) ∧
    (∀ (persist : Bool) (name : String) (k : Nat) (vts : List (JsValue × Int)),
      vts.length = k + 1 →
      (∀ vt ∈ vts, canAdd vt.1 = Except.ok true) →
      (vts.map Prod.fst).Nodup →
      List.Pairwise (fun a b : JsValue × Int => a.2 < b.2) vts →
      (getContent (runRecencyInserts name (some k) (emptyState persist) vts)
        name).map (·.entry) = ((vts.map Prod.fst).tail).reverse) :=
  ⟨addArrayEntry_evicts_oldest, recency_eviction_k_plus_one⟩

/-- Witness for `recency_eviction_spec`: a single over-capacity insert on a
concrete two-record store, and the three-into-capacity-two scenario (p3, p2
retained, p1 evicted). -/
theorem recency_eviction_spec_witness :
    (addArrayEntry
        (StateManagement.mk "persistance" false
          (fun n => if n = "paths" then
              some [⟨JsValue.vStr "p1", 1, 1⟩, ⟨JsValue.vStr "p2", 2, 1⟩]
            else none)
          (fun _ => none))
        "paths" (JsValue.vStr "p3") (some 2) 3 true
      = Except.ok (writeArrayEntries
          (StateManagement.mk "persistance" false
            (fun n => if n = "paths" then
                some [⟨JsValue.vStr "p1", 1, 1⟩, ⟨JsValue.vStr "p2", 2, 1⟩]
              else none)
            (fun _ => none))
          "paths"
          ((sortTimeDesc [⟨JsValue.vStr "p1", 1, 1⟩, ⟨JsValue.vStr "p2", 2, 1⟩,
            ⟨JsValue.vStr "p3", 3, 1⟩]).dropLast)) ∧
      ∃ e, sortTimeDesc [⟨JsValue.vStr "p1", 1, 1⟩, ⟨JsValue.vStr "p2", 2, 1⟩,
            ⟨JsValue.vStr "p3", 3, 1⟩]
          = (sortTimeDesc [⟨JsValue.vStr "p1", 1, 1⟩, ⟨JsValue.vStr "p2", 2, 1⟩,
              ⟨JsValue.vStr "p3", 3, 1⟩]).dropLast ++ [e] ∧
        e ∈ [(⟨JsValue.vStr "p1", 1, 1⟩ : EntryRecord), ⟨JsValue.vStr "p2", 2, 1⟩,
            ⟨JsValue.vStr "p3", 3, 1⟩] ∧
        ∀ x ∈ [(⟨JsValue.vStr "p1", 1, 1⟩ : EntryRecord), ⟨JsValue.vStr "p2", 2, 1⟩,
            ⟨JsValue.vStr "p3", 3, 1⟩], e.time ≤ x.time) ∧
    ((getContent (runRecencyInserts "paths" (some 2) (emptyState false)
        [(JsValue.vStr "p1", 1), (JsValue.vStr "p2", 2), (JsValue.vStr "p3", 3)])
        "paths").map (·.entry)
      = (([(JsValue.vStr "p1", 1), (JsValue.vStr "p2", 2),
          (JsValue.vStr "p3", 3)].map Prod.fst).tail).reverse) :=
  ⟨recency_eviction_spec.1 _ "paths" (JsValue.vStr "p3") 2 3
      [⟨JsValue.vStr "p1", 1, 1⟩, ⟨JsValue.vStr "p2", 2, 1⟩, ⟨JsValue.vStr "p3", 3, 1⟩]
      (by decide) (by decide) (by decide),
    recency_eviction_spec.2 false "paths" 2
      [(JsValue.vStr "p1", 1), (JsValue.vStr "p2", 2), (JsValue.vStr "p3", 3)]
      (by decide) (by decide) (by decide) (by decide)⟩
